import Mathlib

set_option maxRecDepth 1000000
set_option linter.unusedVariables false
set_option linter.unusedSectionVars false

/-!
Verification of the adaptive banded Viterbi aligner from
`src/nanopolish_raw_loader.inl` (class `AdaptiveBandedViterbi` and the
driver `generic_banded_simple_hmm`).

Modelling conventions:
* Log-domain scores (C `float` / `double`) are modelled by `WithBot α`
  for an arbitrary linear ordered ring `α`, with `⊥` standing for the C
  sentinel `-INFINITY`.  All finite scores the code manipulates are sums
  of finite log-probabilities and emission scores, so the only non-finite
  value that can arise is `-∞` (`-∞ + finite = -∞`), which `WithBot`
  reproduces exactly.  Instantiating `α` with `ℝ` or `ℚ` recovers the
  idealized float semantics; concrete evaluations below use `α = ℤ`.
* The transition log-probabilities `lp_skip`, `lp_stay`, `lp_step`,
  `lp_trim` are parameters in `α` of the core fill (the algorithm only
  ever adds, scales and compares them); the driver's derivation of these
  scores from the configured probabilities and the input sizes
  (lines 302-307: `p_stay = 1 - 1/(n_events/n_kmers)`,
  `lp_step = log(1 - exp lp_skip - exp lp_stay)`, `lp_trim = log p_trim`)
  is modelled over `ℝ` by `derived_fill_params` and the wrapper
  `generic_banded_simple_hmm_derived`.  The composite
  `log_probability_match_r9(read, pore_model, kmer_ranks[kmer_idx], event_idx)`
  is modelled by a parameter function `lp_emission : ℤ → ℤ → α`, finite
  for every pair as the external interface promises.
* C `int` values (indices, offsets) are modelled by `ℤ`; the `size_t`
  round-trips through `int` in `backtrack` behave as the identity on the
  values that actually occur and are modelled as such.
* The two flat `malloc`-ed buffers `band_scores` and `trace` are modelled
  as total functions `ℕ → _` over the flat index
  `band_idx * bandwidth + band_offset`; the initialization double loop of
  `initialize` writes `(-INFINITY, 0)` into every cell, so the initial
  buffers are the constant functions.
-/

namespace AdaBanded

/-- Log-domain score; `⊥` models the C sentinel `-INFINITY`. -/
abbrev Score (α : Type) := WithBot α

/-- `SimpleHMMMovementType::SHMM_FROM_D`. -/
def SHMM_FROM_D : ℕ := 0

/-- `SimpleHMMMovementType::SHMM_FROM_U`. -/
def SHMM_FROM_U : ℕ := 1

/-- `SimpleHMMMovementType::SHMM_FROM_L`. -/
def SHMM_FROM_L : ℕ := 2

/-- `struct BandOrigin`: the lower-left position of a band. -/
structure BandOrigin where
  event_idx : ℤ
  kmer_idx : ℤ
deriving DecidableEq, Repr

/-- `struct AlignedPair` (declared in the surrounding project; `backtrack`
emits `{curr_kmer_idx, curr_event_idx}`). -/
structure AlignedPair where
  kmer_idx : ℤ
  event_idx : ℤ
deriving DecidableEq, Repr

/-- The mutable state of class `AdaptiveBandedViterbi`.  `lp_trim` holds
`log(parameters.p_trim)`, the only piece of `AdaBandedParameters` besides
`bandwidth` that the class itself reads (in `backtrack`). -/
structure ABV (α : Type) where
  bandwidth : ℕ
  n_events : ℕ
  n_kmers : ℕ
  n_bands : ℕ
  band_scores : ℕ → Score α
  trace : ℕ → ℕ
  band_origins : ℕ → BandOrigin
  n_fills : ℕ
  lp_trim : α

variable {α : Type} [LinearOrderedRing α]

/-- `get_offset_for_event_in_band`. -/
def ABV.get_offset_for_event_in_band (st : ABV α) (band_idx : ℕ) (event_idx : ℤ) : ℤ :=
  (st.band_origins band_idx).event_idx - event_idx

/-- `get_offset_for_kmer_in_band`. -/
def ABV.get_offset_for_kmer_in_band (st : ABV α) (band_idx : ℕ) (kmer_idx : ℤ) : ℤ :=
  kmer_idx - (st.band_origins band_idx).kmer_idx

/-- `get_event_at_band_offset`. -/
def ABV.get_event_at_band_offset (st : ABV α) (band_idx : ℕ) (offset : ℤ) : ℤ :=
  (st.band_origins band_idx).event_idx - offset

/-- `get_kmer_at_band_offset`. -/
def ABV.get_kmer_at_band_offset (st : ABV α) (band_idx : ℕ) (offset : ℤ) : ℤ :=
  (st.band_origins band_idx).kmer_idx + offset

/-- `event_kmer_to_band`: `(event_idx + 1) + (kmer_idx + 1)`. -/
def event_kmer_to_band (event_idx kmer_idx : ℤ) : ℤ :=
  (event_idx + 1) + (kmer_idx + 1)

/-- `is_offset_valid`: `band_offset >= 0 && band_offset < bandwidth`. -/
def ABV.is_offset_valid (st : ABV α) (band_offset : ℤ) : Prop :=
  0 ≤ band_offset ∧ band_offset < (st.bandwidth : ℤ)

instance (st : ABV α) (band_offset : ℤ) : Decidable (st.is_offset_valid band_offset) := by
  unfold ABV.is_offset_valid
  infer_instance

/-- Flat buffer index `band_idx * bandwidth + band_offset`. -/
def ABV.cell_index (st : ABV α) (band_idx : ℕ) (band_offset : ℤ) : ℕ :=
  band_idx * st.bandwidth + band_offset.toNat

/-- `get`: bounds-checked score read, `-INFINITY` when out of band. -/
def ABV.get (st : ABV α) (band_idx : ℕ) (band_offset : ℤ) : Score α :=
  if st.is_offset_valid band_offset then
    st.band_scores (st.cell_index band_idx band_offset)
  else ⊥

/-- `get_trace`: bounds-checked move-tag read, `0` when out of band. -/
def ABV.get_trace (st : ABV α) (band_idx : ℕ) (band_offset : ℤ) : ℕ :=
  if st.is_offset_valid band_offset then
    st.trace (st.cell_index band_idx band_offset)
  else 0

/-- `set`: unchecked write of score and move tag at the flat index. -/
def ABV.set (st : ABV α) (band_idx : ℕ) (band_offset : ℤ) (value : Score α) (fr : ℕ) :
    ABV α :=
  { st with
    band_scores := fun i =>
      if i = st.cell_index band_idx band_offset then value else st.band_scores i
    trace := fun i =>
      if i = st.cell_index band_idx band_offset then fr else st.trace i }

/-- `set3`: sequential 3-way maximum with the tag updates exactly as in the
source (`from = max_score == score_u ? SHMM_FROM_U : from`, etc.), then a
`set` and a fill-counter increment. -/
def ABV.set3 (st : ABV α) (band_idx : ℕ) (band_offset : ℤ)
    (score_d score_u score_l : Score α) : ABV α :=
  let max_score := score_d
  let fr := SHMM_FROM_D
  let max_score := if score_u > max_score then score_u else max_score
  let fr := if max_score = score_u then SHMM_FROM_U else fr
  let max_score := if score_l > max_score then score_l else max_score
  let fr := if max_score = score_l then SHMM_FROM_L else fr
  let st := st.set band_idx band_offset max_score fr
  { st with n_fills := st.n_fills + 1 }

/-- `move_band_down`. -/
def move_band_down (curr_origin : BandOrigin) : BandOrigin :=
  ⟨curr_origin.event_idx + 1, curr_origin.kmer_idx⟩

/-- `move_band_right`. -/
def move_band_right (curr_origin : BandOrigin) : BandOrigin :=
  ⟨curr_origin.event_idx, curr_origin.kmer_idx + 1⟩

/-- `initialize`: sizes the matrix, clears every cell to `(-INFINITY, 0)`
(the double loop over `set`), and fixes the origins of bands 0 and 1;
`resize` value-initializes the remaining origins to `(0, 0)`. -/
def ABV.initialize (α : Type) (n_events n_kmers bandwidth : ℕ) (lp_trim : α) : ABV α :=
  let half_bandwidth : ℤ := (bandwidth / 2 : ℕ)
  let origin0 : BandOrigin := ⟨half_bandwidth - 1, -1 - half_bandwidth⟩
  { bandwidth := bandwidth
    n_events := n_events
    n_kmers := n_kmers
    n_bands := (n_events + 1) + (n_kmers + 1)
    band_scores := fun _ => ⊥
    trace := fun _ => 0
    band_origins := fun i =>
      if i = 0 then origin0
      else if i = 1 then move_band_down origin0
      else ⟨0, 0⟩
    n_fills := 0
    lp_trim := lp_trim }

/-- `determine_band_origin`: Suzuki's adaptive rule.  When both boundary
cells of the previous band are `-INFINITY` the parity of the band index
decides; otherwise move right iff `ll < ur`. -/
def ABV.determine_band_origin (st : ABV α) (band_idx : ℕ) : ABV α :=
  let ll := st.get (band_idx - 1) 0
  let ur := st.get (band_idx - 1) ((st.bandwidth : ℤ) - 1)
  let right : Bool :=
    if ll = ⊥ ∧ ur = ⊥ then band_idx % 2 == 1
    else decide (ll < ur)
  if right then
    { st with band_origins := fun i =>
        if i = band_idx then move_band_right (st.band_origins (band_idx - 1))
        else st.band_origins i }
  else
    { st with band_origins := fun i =>
        if i = band_idx then move_band_down (st.band_origins (band_idx - 1))
        else st.band_origins i }

/-- `get_offset_range_for_band`: intersection of the k-mer range
`[0, n_kmers]` and the event range `[-1, n_events - 1]`, clipped to
`[0, bandwidth]`. -/
def ABV.get_offset_range_for_band (st : ABV α) (band_idx : ℕ) : ℤ × ℤ :=
  let kmer_min_offset := st.get_offset_for_kmer_in_band band_idx 0
  let kmer_max_offset := st.get_offset_for_kmer_in_band band_idx (st.n_kmers : ℤ)
  let event_min_offset := st.get_offset_for_event_in_band band_idx ((st.n_events : ℤ) - 1)
  let event_max_offset := st.get_offset_for_event_in_band band_idx (-1)
  let min_offset := max (max kmer_min_offset event_min_offset) 0
  let max_offset := min (min kmer_max_offset event_max_offset) (st.bandwidth : ℤ)
  (min_offset, max_offset)

/-- The termination scan of `backtrack`: the best trim-adjusted score over
every event index paired with the last k-mer, together with the event index
achieving it (`curr_event_idx` starts at 0 and is only moved on a strict
improvement `s > max_score`). -/
def ABV.backtrack_scan (st : ABV α) : Score α × ℤ :=
  let curr_kmer_idx : ℤ := (st.n_kmers : ℤ) - 1
  (List.range st.n_events).foldl
    (fun acc e =>
      let event_idx : ℤ := (e : ℤ)
      let band_idx := (event_kmer_to_band event_idx curr_kmer_idx).toNat
      let offset := st.get_offset_for_event_in_band band_idx event_idx
      if st.is_offset_valid offset then
        let s : Score α :=
          st.get band_idx offset +
            (((((st.n_events : ℤ) - event_idx : ℤ) : α) * st.lp_trim : α) : Score α)
        if acc.1 < s then (s, event_idx) else acc
      else acc)
    (⊥, 0)

/-- The best trim-adjusted termination score found by `backtrack`
(`max_score` after the scan loop). -/
def ABV.best_score (st : ABV α) : Score α :=
  st.backtrack_scan.1

/-- The backward walk of `backtrack`: while both indices are non-negative,
emit the current pair unless the last move was a skip, then follow the
stored move tag (diagonal / up / anything-else-is-left).  `fuel` bounds the
iteration count; `backtrack` passes enough fuel for the walk to reach its
C termination condition. -/
def ABV.backtrack_go (st : ABV α) :
    ℕ → ℤ → ℤ → Bool → List AlignedPair → List AlignedPair
  | 0, _, _, _, out => out
  | fuel + 1, curr_kmer_idx, curr_event_idx, is_skip, out =>
    if 0 ≤ curr_kmer_idx ∧ 0 ≤ curr_event_idx then
      let out := if is_skip then out else out ++ [⟨curr_kmer_idx, curr_event_idx⟩]
      let band_idx := (event_kmer_to_band curr_event_idx curr_kmer_idx).toNat
      let offset := st.get_offset_for_event_in_band band_idx curr_event_idx
      let fr := st.get_trace band_idx offset
      if fr = SHMM_FROM_D then
        st.backtrack_go fuel (curr_kmer_idx - 1) (curr_event_idx - 1) false out
      else if fr = SHMM_FROM_U then
        st.backtrack_go fuel curr_kmer_idx (curr_event_idx - 1) false out
      else
        st.backtrack_go fuel (curr_kmer_idx - 1) curr_event_idx true out
    else out

/-- `backtrack`: termination scan, backward walk, final `std::reverse`. -/
def ABV.backtrack (st : ABV α) : List AlignedPair :=
  let curr_event_idx := st.backtrack_scan.2
  let curr_kmer_idx : ℤ := (st.n_kmers : ℤ) - 1
  (st.backtrack_go (st.n_kmers + st.n_events + 2)
    curr_kmer_idx curr_event_idx false []).reverse

/-- The transition log-probabilities and the emission scorer used by the
fill loop of `generic_banded_simple_hmm`.  `lp_emission event_idx kmer_idx`
models `log_probability_match_r9(read, pore_model, kmer_ranks[kmer_idx],
event_idx, strand_idx)`. -/
structure FillParams (α : Type) where
  lp_skip : α
  lp_stay : α
  lp_step : α
  lp_emission : ℤ → ℤ → α

/-- The left/skip candidate of the recurrence (line
`score_l = left + (kmer_idx > 0 ? lp_skip : lp_step + lp_emission)`). -/
def left_candidate (P : FillParams α) (left : Score α) (kmer_idx : ℤ) (lp_emission : α) :
    Score α :=
  left + ((if 0 < kmer_idx then P.lp_skip else P.lp_step + lp_emission : α) : Score α)

/-- The body of the inner offset loop of `generic_banded_simple_hmm`:
resolve the cell's coordinates, read the three predecessors, build the
three candidate scores and store them through `set3`. -/
def ABV.fill_cell (st : ABV α) (P : FillParams α) (band_idx : ℕ) (offset : ℤ) : ABV α :=
  let event_idx := st.get_event_at_band_offset band_idx offset
  let kmer_idx := st.get_kmer_at_band_offset band_idx offset
  let offset_up := st.get_offset_for_event_in_band (band_idx - 1) (event_idx - 1)
  let offset_left := st.get_offset_for_kmer_in_band (band_idx - 1) (kmer_idx - 1)
  let offset_diag := st.get_offset_for_kmer_in_band (band_idx - 2) (kmer_idx - 1)
  let up := st.get (band_idx - 1) offset_up
  let left := st.get (band_idx - 1) offset_left
  let diag := st.get (band_idx - 2) offset_diag
  let lp_emission := P.lp_emission event_idx kmer_idx
  let score_d := diag + ((P.lp_step + lp_emission : α) : Score α)
  let score_u := up + ((P.lp_stay + lp_emission : α) : Score α)
  let score_l := left_candidate P left kmer_idx lp_emission
  st.set3 band_idx offset score_d score_u score_l

/-- One iteration of the outer band loop: place the band, fill the
"k-mer = -1" trim cell when it lies inside the band, then fill every
offset in the band's valid range. -/
def ABV.fill_band (st : ABV α) (P : FillParams α) (band_idx : ℕ) : ABV α :=
  let st1 := st.determine_band_origin band_idx
  let trim_offset := st1.get_offset_for_kmer_in_band band_idx (-1)
  let st2 :=
    if st1.is_offset_valid trim_offset then
      let event_idx := st1.get_event_at_band_offset band_idx trim_offset
      if 0 ≤ event_idx ∧ event_idx < (st1.n_events : ℤ) then
        st1.set band_idx trim_offset
          ((st1.lp_trim * ((event_idx : α) + 1) : α) : Score α) SHMM_FROM_U
      else
        st1.set band_idx trim_offset ⊥ 0
    else st1
  let r := st2.get_offset_range_for_band band_idx
  (List.range (r.2 - r.1).toNat).foldl
    (fun acc (i : ℕ) => acc.fill_cell P band_idx (r.1 + (i : ℤ))) st2

/-- The outer band loop, `count` iterations starting at band 2:
`fill_loop P st count` processes bands `2, 3, …, count + 1`. -/
def fill_loop (P : FillParams α) (st : ABV α) : ℕ → ABV α
  | 0 => st
  | k + 1 => (fill_loop P st k).fill_band P (k + 2)

/-- `generic_banded_simple_hmm`: initialize, seed bands 0 (start cell,
score 0) and 1 (first event trimmed, `lp_trim`), then fill bands
`2 … n_bands - 1`. -/
def generic_banded_simple_hmm (n_events n_kmers bandwidth : ℕ)
    (lp_trim : α) (P : FillParams α) : ABV α :=
  let st := ABV.initialize α n_events n_kmers bandwidth lp_trim
  let start_cell_offset := st.get_offset_for_kmer_in_band 0 (-1)
  let st := st.set 0 start_cell_offset ((0 : α) : Score α) 0
  let first_trim_offset := st.get_offset_for_event_in_band 1 0
  let st := st.set 1 first_trim_offset ((lp_trim : α) : Score α) SHMM_FROM_U
  fill_loop P st (st.n_bands - 2)

/-! The derivation of the transition scores (driver lines 302-307):
`p_stay` is forced by the input sizes and `lp_step` by `p_skip` and
`p_stay`, so the program's free inputs are `p_skip`, `p_trim` and the
emission model.  The derivation takes real logarithms, so it lives in
`ℝ`. -/

/-- Driver lines 302-303: `events_per_kmer = n_events / n_kmers` and
`p_stay = 1 - (1 / events_per_kmer)`. -/
noncomputable def derived_p_stay (n_events n_kmers : ℕ) : ℝ :=
  let events_per_kmer : ℝ := (n_events : ℝ) / (n_kmers : ℝ)
  1 - 1 / events_per_kmer

/-- Driver lines 304-306: `lp_skip = log p_skip`, `lp_stay = log p_stay`
and `lp_step = log (1 - exp lp_skip - exp lp_stay)`. -/
noncomputable def derived_fill_params (n_events n_kmers : ℕ) (p_skip : ℝ)
    (lp_emission : ℤ → ℤ → ℝ) : FillParams ℝ :=
  let lp_skip := Real.log p_skip
  let lp_stay := Real.log (derived_p_stay n_events n_kmers)
  let lp_step := Real.log (1 - Real.exp lp_skip - Real.exp lp_stay)
  ⟨lp_skip, lp_stay, lp_step, lp_emission⟩

/-- `generic_banded_simple_hmm` as the program calls it: the transition
scores derived from `p_skip` and the input sizes, and `lp_trim` set to
`log p_trim` (driver lines 302-307). -/
noncomputable def generic_banded_simple_hmm_derived (n_events n_kmers bandwidth : ℕ)
    (p_skip p_trim : ℝ) (lp_emission : ℤ → ℤ → ℝ) : ABV ℝ :=
  generic_banded_simple_hmm n_events n_kmers bandwidth (Real.log p_trim)
    (derived_fill_params n_events n_kmers p_skip lp_emission)

/-! Transport along `z ↦ z * L` for a fixed `0 < L`: when every transition
and emission score is an integer multiple of `L`, the fill and the
termination scan compute the image of the corresponding integer
computation, because the algorithm only ever adds scores, scales them by
integer counts and compares them, and `z ↦ z * L` preserves and reflects
all of that. -/

/-- Scale an integer score into `ℝ` by a fixed factor `L`. -/
def zscale (L : ℝ) (z : ℤ) : ℝ := (z : ℝ) * L

/-- `zscale` lifted to scores (`⊥` goes to `⊥`). -/
def smap (L : ℝ) : Score ℤ → Score ℝ :=
  WithBot.map (zscale L)

/-- Relabel every stored score and `lp_trim` of a state along `f`, leaving
the dimensions, origins and traces unchanged. -/
def ABV.scoreMap {β : Type} (f : α → β) (st : ABV α) : ABV β :=
  { bandwidth := st.bandwidth
    n_events := st.n_events
    n_kmers := st.n_kmers
    n_bands := st.n_bands
    band_scores := fun i => (st.band_scores i).map f
    trace := st.trace
    band_origins := st.band_origins
    n_fills := st.n_fills
    lp_trim := f st.lp_trim }

/-- Relabel the fill parameters along `f`. -/
def FillParams.scoreMap {β : Type} (f : α → β) (P : FillParams α) : FillParams β :=
  ⟨f P.lp_skip, f P.lp_stay, f P.lp_step, fun e k => f (P.lp_emission e k)⟩

/-! Concrete instances used by the counterexample and witness theorems
below.  `exP6` exercises the zero-event case.  `exEm9` / `exP9` describe,
in units of `log 2`, the program input with 4 events, 3 k-mers,
`p_skip = 1/4` and `p_trim = 1/2` on which widening the band strictly
lowers the best termination score: the derivation forces
`p_stay = 1 - 3/4 = 1/4`, hence `lp_skip = lp_stay = -2 * log 2`,
`lp_step = log (1 - 1/4 - 1/4) = -1 * log 2` and
`lp_trim = -1 * log 2`. -/

/-- Fill parameters for the zero-event run. -/
def exP6 : FillParams ℤ := ⟨-2, -1, -1, fun _ _ => 0⟩

/-- Emission table of the bandwidth counterexample in units of `log 2`
(events 0..3, k-mers 0..2). -/
def exEm9 : ℤ → ℤ → ℤ := fun e k =>
  if e = 0 then (if k = 0 then 0 else if k = 1 then -3 else -4)
  else if e = 1 then (if k = 0 then -1 else if k = 1 then -2 else 6)
  else if e = 2 then (if k = 0 then -5 else if k = 1 then 3 else 3)
  else (if k = 0 then 1 else if k = 1 then -4 else -2)

/-- The bandwidth counterexample's transition scores in units of `log 2`:
`lp_skip = -2`, `lp_stay = -2`, `lp_step = -1`. -/
def exP9 : FillParams ℤ := ⟨-2, -2, -1, exEm9⟩

/-- The counterexample's emission model as the program sees it: the
integer table scaled by `log 2` (the emission collaborator may return any
finite scores). -/
noncomputable def exEm9R : ℤ → ℤ → ℝ := fun e k => zscale (Real.log 2) (exEm9 e k)

/-- A state whose band origins place the walk's cells outside the band,
for exercising the out-of-band trace read. -/
def exFarOrigin : ABV ℤ :=
  { bandwidth := 1
    n_events := 1
    n_kmers := 1
    n_bands := 4
    band_scores := fun _ => ⊥
    trace := fun _ => 0
    band_origins := fun _ => ⟨5, -5⟩
    n_fills := 0
    lp_trim := 0 }


/-! ### Theorems -/

/-- C2: converting `(band, offset)` to `(event, kmer)` and back is the
identity, and the event-indexed and k-mer-indexed offset formulas agree. -/
theorem coordinate_roundtrip (st : ABV α) (band_idx : ℕ) (offset : ℤ)
    (hband : band_idx < st.n_bands) (hoff : st.is_offset_valid offset) :
    st.get_offset_for_event_in_band band_idx (st.get_event_at_band_offset band_idx offset)
        = offset ∧
    st.get_offset_for_kmer_in_band band_idx (st.get_kmer_at_band_offset band_idx offset)
        = offset := by
  unfold ABV.get_offset_for_event_in_band ABV.get_event_at_band_offset
    ABV.get_offset_for_kmer_in_band ABV.get_kmer_at_band_offset
  constructor <;> ring

/-- Witness for `coordinate_roundtrip` at a concrete band and offset. -/
theorem coordinate_roundtrip_witness :
    ( ABV.initialize ℤ 1 1 1 0).get_offset_for_event_in_band 0
        (( ABV.initialize ℤ 1 1 1 0).get_event_at_band_offset 0 0) = 0 ∧
    ( ABV.initialize ℤ 1 1 1 0).get_offset_for_kmer_in_band 0
        (( ABV.initialize ℤ 1 1 1 0).get_kmer_at_band_offset 0 0) = 0 :=
  coordinate_roundtrip ( ABV.initialize ℤ 1 1 1 0) 0 0 (by decide) (by decide)

/-- C3: `get` returns `-INFINITY` for any out-of-range offset and the
stored score otherwise; being a total function it never faults. -/
theorem get_bounds_checked (st : ABV α) (band_idx : ℕ) (band_offset : ℤ)
    (hband : band_idx < st.n_bands) :
    ((band_offset < 0 ∨ (st.bandwidth : ℤ) ≤ band_offset) →
        st.get band_idx band_offset = ⊥) ∧
    (0 ≤ band_offset → band_offset < (st.bandwidth : ℤ) →
        st.get band_idx band_offset
          = st.band_scores (st.cell_index band_idx band_offset)) := by
  unfold ABV.get ABV.is_offset_valid
  refine ⟨fun h => ?_, fun h1 h2 => ?_⟩
  · rw [if_neg]
    omega
  · rw [if_pos ⟨h1, h2⟩]

/-- Witness for `get_bounds_checked`: out-of-range and in-range reads. -/
theorem get_bounds_checked_witness :
    ( ABV.initialize ℤ 1 1 1 0).get 0 (-1) = ⊥ ∧
    ( ABV.initialize ℤ 1 1 1 0).get 0 0
      = ( ABV.initialize ℤ 1 1 1 0).band_scores
          (( ABV.initialize ℤ 1 1 1 0).cell_index 0 0) :=
  ⟨(get_bounds_checked ( ABV.initialize ℤ 1 1 1 0) 0 (-1) (by decide)).1
      (Or.inl (by decide)),
   (get_bounds_checked ( ABV.initialize ℤ 1 1 1 0) 0 0 (by decide)).2
      (by decide) (by decide)⟩

/-- C8: the left/skip candidate adds the skip log-probability when
`kmer_idx > 0` and the step log-probability plus the emission when
`kmer_idx = 0`. -/
theorem left_candidate_rule (P : FillParams α) (left : Score α) (kmer_idx : ℤ)
    (lp_e : α) :
    (0 < kmer_idx →
      left_candidate P left kmer_idx lp_e = left + ((P.lp_skip : α) : Score α)) ∧
    (kmer_idx = 0 →
      left_candidate P left kmer_idx lp_e = left + ((P.lp_step + lp_e : α) : Score α)) := by
  unfold left_candidate
  refine ⟨fun h => ?_, fun h => ?_⟩
  · rw [if_pos h]
  · subst h
    rw [if_neg (lt_irrefl 0)]

/-- Witness for `left_candidate_rule`: skip vs first-k-mer step. -/
theorem left_candidate_rule_witness :
    left_candidate (⟨-2, -4, -4, fun _ _ => 0⟩ : FillParams ℤ) ((0 : ℤ) : Score ℤ) 1 7
        = ((0 : ℤ) : Score ℤ) + ((-2 : ℤ) : Score ℤ) ∧
    left_candidate (⟨-2, -4, -4, fun _ _ => 0⟩ : FillParams ℤ) ((0 : ℤ) : Score ℤ) 0 7
        = ((0 : ℤ) : Score ℤ) + ((3 : ℤ) : Score ℤ) :=
  ⟨(left_candidate_rule (⟨-2, -4, -4, fun _ _ => 0⟩ : FillParams ℤ)
      ((0 : ℤ) : Score ℤ) 1 7).1 (by decide),
   (left_candidate_rule (⟨-2, -4, -4, fun _ _ => 0⟩ : FillParams ℤ)
      ((0 : ℤ) : Score ℤ) 0 7).2 rfl⟩

/-- C10: out-of-band trace reads return 0, the diagonal tag, and the
backward walk therefore decrements both indices at such a cell. -/
theorem get_trace_out_of_band (st : ABV α) (band_idx : ℕ) (band_offset : ℤ)
    (h : ¬ st.is_offset_valid band_offset) :
    st.get_trace band_idx band_offset = SHMM_FROM_D ∧
    (∀ (fuel : ℕ) (ke ee : ℤ) (out : List AlignedPair),
      0 ≤ ke → 0 ≤ ee →
      (event_kmer_to_band ee ke).toNat = band_idx →
      st.get_offset_for_event_in_band band_idx ee = band_offset →
      st.backtrack_go (fuel + 1) ke ee false out
        = st.backtrack_go fuel (ke - 1) (ee - 1) false
            (out ++ [⟨ke, ee⟩])) := by
  have htr : st.get_trace band_idx band_offset = SHMM_FROM_D := by
    unfold ABV.get_trace
    rw [if_neg h]
    rfl
  refine ⟨htr, fun fuel ke ee out hke hee hband hoff => ?_⟩
  show (if 0 ≤ ke ∧ 0 ≤ ee then _ else _) = _
  rw [if_pos ⟨hke, hee⟩]
  simp only [if_neg (Bool.false_ne_true), hband, hoff, htr]
  rfl

/-- Witness for `get_trace_out_of_band` on a state whose origin places the
walk cell outside the band. -/
theorem get_trace_out_of_band_witness :
    exFarOrigin.get_trace 2 5 = SHMM_FROM_D ∧
    exFarOrigin.backtrack_go 1 0 0 false []
      = exFarOrigin.backtrack_go 0 (-1) (-1) false [⟨0, 0⟩] := by
  have h := get_trace_out_of_band exFarOrigin 2 5 (by decide)
  exact ⟨h.1, h.2 0 0 0 [] (by decide) (by decide) (by decide) (by decide)⟩


/-- Helper: the source's conditional `b > a ? b : a` is the lattice `max`. -/
lemma if_gt_else_eq_max (a b : Score α) : (if b > a then b else a) = max a b := by
  rcases lt_or_ge a b with h | h
  · rw [if_pos h, max_eq_right h.le]
  · rw [if_neg (not_lt.mpr h), max_eq_left h]

/-- C1 counterexample: with all three candidates equal, `set3` records
`SHMM_FROM_L`, not the claimed `SHMM_FROM_D`. -/
theorem set3_tie_break_cex :
    (( ABV.initialize ℤ 1 1 1 0).set3 0 0 ((0 : ℤ) : Score ℤ) ((0 : ℤ) : Score ℤ)
        ((0 : ℤ) : Score ℤ)).get_trace 0 0 = SHMM_FROM_L ∧
    SHMM_FROM_L ≠ SHMM_FROM_D := by
  exact ⟨by decide, by decide⟩

/-- Helper: `get` ignores a fill-counter update. -/
lemma get_update_n_fills (st : ABV α) (n b : ℕ) (o : ℤ) :
    ({ st with n_fills := n } : ABV α).get b o = st.get b o := rfl

/-- Helper: `get_trace` ignores a fill-counter update. -/
lemma get_trace_update_n_fills (st : ABV α) (n b : ℕ) (o : ℤ) :
    ({ st with n_fills := n } : ABV α).get_trace b o = st.get_trace b o := rfl

/-- C1 (amended): `set3` stores the three-way maximum, but ties prefer the
LATER-compared source: left when `score_l` attains the maximum, otherwise
up when `score_u ≥ score_d`, otherwise diagonal. -/
theorem set3_stores_max_late_tie (st : ABV α) (band_idx : ℕ) (band_offset : ℤ)
    (h : st.is_offset_valid band_offset) (score_d score_u score_l : Score α) :
    (st.set3 band_idx band_offset score_d score_u score_l).get band_idx band_offset
        = max score_d (max score_u score_l) ∧
    (st.set3 band_idx band_offset score_d score_u score_l).get_trace band_idx band_offset
        = (if max score_d (max score_u score_l) ≤ score_l then SHMM_FROM_L
           else if score_d ≤ score_u then SHMM_FROM_U
           else SHMM_FROM_D) := by
  have h' : 0 ≤ band_offset ∧ band_offset < (st.bandwidth : ℤ) := h
  have hval : ∀ (v : Score α) (fr : ℕ),
      (st.set band_idx band_offset v fr).get band_idx band_offset = v := by
    intro v fr
    simp [ABV.get, ABV.set, ABV.is_offset_valid, ABV.cell_index, h'.1, h'.2]
  have htr : ∀ (v : Score α) (fr : ℕ),
      (st.set band_idx band_offset v fr).get_trace band_idx band_offset = fr := by
    intro v fr
    simp [ABV.get_trace, ABV.set, ABV.is_offset_valid, ABV.cell_index, h'.1, h'.2]
  unfold ABV.set3
  simp only [get_update_n_fills, get_trace_update_n_fills, hval, htr, if_gt_else_eq_max]
  constructor
  · exact max_assoc _ _ _
  · rcases le_or_lt (max score_d score_u) score_l with hl | hl
    · have hd : score_d ≤ score_l := (le_max_left score_d score_u).trans hl
      have hu : score_u ≤ score_l := (le_max_right score_d score_u).trans hl
      rw [if_pos (max_eq_right hl), if_pos (max_le hd (max_le hu le_rfl))]
    · have hne : max (max score_d score_u) score_l ≠ score_l := fun hc =>
        absurd ((le_max_left (max score_d score_u) score_l).trans hc.le)
          (not_le.mpr hl)
      have hnc : ¬ (max score_d (max score_u score_l) ≤ score_l) := fun hc =>
        absurd
          (max_le (le_trans (le_max_left score_d (max score_u score_l)) hc)
            (le_trans (le_trans (le_max_left score_u score_l)
              (le_max_right score_d (max score_u score_l))) hc))
          (not_le.mpr hl)
      rw [if_neg hne, if_neg hnc]
      rcases le_or_lt score_d score_u with hdu | hdu
      · rw [if_pos (max_eq_right hdu), if_pos hdu]
      · have hne2 : max score_d score_u ≠ score_u := fun hc =>
          absurd (hc ▸ le_max_left score_d score_u) (not_le.mpr hdu)
        rw [if_neg hne2, if_neg (not_le.mpr hdu)]

/-- Witness for `set3_stores_max_late_tie` at concrete scores. -/
theorem set3_stores_max_late_tie_witness :
    (( ABV.initialize ℤ 1 1 1 0).set3 0 0 ((5 : ℤ) : Score ℤ) ((2 : ℤ) : Score ℤ)
        ((1 : ℤ) : Score ℤ)).get 0 0
      = max ((5 : ℤ) : Score ℤ) (max ((2 : ℤ) : Score ℤ) ((1 : ℤ) : Score ℤ)) :=
  (set3_stores_max_late_tie ( ABV.initialize ℤ 1 1 1 0) 0 0 (by decide)
    ((5 : ℤ) : Score ℤ) ((2 : ℤ) : Score ℤ) ((1 : ℤ) : Score ℤ)).1

/-- C4: for bands `i ≥ 2` the band origin moves right on odd `i` and down
on even `i` when both boundary scores are `-INFINITY`, and otherwise moves
right iff `ll < ur`. -/
theorem determine_band_origin_rule (st : ABV α) (band_idx : ℕ) (h2 : 2 ≤ band_idx) :
    (st.determine_band_origin band_idx).band_origins band_idx =
      (if st.get (band_idx - 1) 0 = ⊥ ∧
          st.get (band_idx - 1) ((st.bandwidth : ℤ) - 1) = ⊥ then
        (if band_idx % 2 = 1 then move_band_right (st.band_origins (band_idx - 1))
         else move_band_down (st.band_origins (band_idx - 1)))
       else
        (if st.get (band_idx - 1) 0 < st.get (band_idx - 1) ((st.bandwidth : ℤ) - 1) then
          move_band_right (st.band_origins (band_idx - 1))
         else move_band_down (st.band_origins (band_idx - 1)))) := by
  simp only [ABV.determine_band_origin]
  by_cases hob : st.get (band_idx - 1) 0 = ⊥ ∧
      st.get (band_idx - 1) ((st.bandwidth : ℤ) - 1) = ⊥
  · rw [if_pos hob, if_pos hob]
    by_cases hpar : band_idx % 2 = 1
    · rw [if_pos hpar]
      rw [if_pos (by simpa using hpar)]
      simp
    · rw [if_neg hpar]
      rw [if_neg (by simpa using hpar)]
      simp
  · rw [if_neg hob, if_neg hob]
    by_cases hlt : st.get (band_idx - 1) 0 < st.get (band_idx - 1) ((st.bandwidth : ℤ) - 1)
    · rw [if_pos hlt]
      rw [if_pos (by simpa using hlt)]
      simp
    · rw [if_neg hlt]
      rw [if_neg (by simpa using hlt)]
      simp

/-- Witness for `determine_band_origin_rule` at band 2 of a fresh state. -/
theorem determine_band_origin_rule_witness :
    (( ABV.initialize ℤ 1 1 2 0).determine_band_origin 2).band_origins 2 =
      (if ( ABV.initialize ℤ 1 1 2 0).get 1 0 = ⊥ ∧
          ( ABV.initialize ℤ 1 1 2 0).get 1 ((( ABV.initialize ℤ 1 1 2 0).bandwidth : ℤ) - 1) = ⊥ then
        (if 2 % 2 = 1 then move_band_right (( ABV.initialize ℤ 1 1 2 0).band_origins 1)
         else move_band_down (( ABV.initialize ℤ 1 1 2 0).band_origins 1))
       else
        (if ( ABV.initialize ℤ 1 1 2 0).get 1 0
            < ( ABV.initialize ℤ 1 1 2 0).get 1 ((( ABV.initialize ℤ 1 1 2 0).bandwidth : ℤ) - 1) then
          move_band_right (( ABV.initialize ℤ 1 1 2 0).band_origins 1)
         else move_band_down (( ABV.initialize ℤ 1 1 2 0).band_origins 1))) :=
  determine_band_origin_rule ( ABV.initialize ℤ 1 1 2 0) 2 (by decide)


/-- Helper: the inner offset fold preserves any projection `fill_cell`
preserves. -/
lemma foldl_fill_cell_proj {γ : Type} (proj : ABV α → γ)
    (hp : ∀ (s : ABV α) (Q : FillParams α) (b : ℕ) (o : ℤ),
      proj (s.fill_cell Q b o) = proj s)
    (P : FillParams α) (b : ℕ) (off : ℤ) (l : List ℕ) (s : ABV α) :
    proj (List.foldl (fun acc (i : ℕ) => acc.fill_cell P b (off + (i : ℤ))) s l)
      = proj s := by
  induction l generalizing s with
  | nil => rfl
  | cons a t ih => rw [List.foldl_cons, ih, hp]

/-- Helper: `determine_band_origin` keeps `n_kmers`. -/
lemma determine_band_origin_n_kmers (st : ABV α) (b : ℕ) :
    (st.determine_band_origin b).n_kmers = st.n_kmers := by
  simp only [ABV.determine_band_origin]
  split <;> split <;> rfl

/-- Helper: `fill_band` keeps `n_kmers`. -/
lemma fill_band_n_kmers (st : ABV α) (P : FillParams α) (b : ℕ) :
    (st.fill_band P b).n_kmers = st.n_kmers := by
  simp only [ABV.fill_band]
  rw [foldl_fill_cell_proj ABV.n_kmers (fun s Q c o => rfl)]
  split
  · split
    · exact determine_band_origin_n_kmers st b
    · exact determine_band_origin_n_kmers st b
  · exact determine_band_origin_n_kmers st b

/-- Helper: the band loop keeps `n_kmers`. -/
lemma fill_loop_n_kmers (P : FillParams α) (st : ABV α) (k : ℕ) :
    (fill_loop P st k).n_kmers = st.n_kmers := by
  induction k with
  | zero => rfl
  | succ n ih =>
    show ((fill_loop P st n).fill_band P (n + 2)).n_kmers = st.n_kmers
    rw [fill_band_n_kmers, ih]

/-- Helper: the driver's final state keeps the requested `n_kmers`. -/
lemma generic_n_kmers (n_events n_kmers bandwidth : ℕ) (lp_trim : α)
    (P : FillParams α) :
    (generic_banded_simple_hmm n_events n_kmers bandwidth lp_trim P).n_kmers
      = n_kmers := by
  simp only [generic_banded_simple_hmm]
  rw [fill_loop_n_kmers]
  rfl

/-- Helper: the backward walk stops as soon as an index is negative. -/
lemma backtrack_go_stop (st : ABV α) (fuel : ℕ) (ke ee : ℤ) (sk : Bool)
    (out : List AlignedPair) (h : ke < 0 ∨ ee < 0) :
    st.backtrack_go fuel ke ee sk out = out := by
  cases fuel with
  | zero => rfl
  | succ n =>
    simp only [ABV.backtrack_go]
    rw [if_neg (by omega)]

/-- C6 counterexample: with zero events and one k-mer the output is a
non-empty spurious pair `(kmer 0, event 0)`. -/
theorem backtrack_empty_cex :
    (generic_banded_simple_hmm 0 1 2 (-1 : ℤ) exP6).n_events = 0 ∧
    (generic_banded_simple_hmm 0 1 2 (-1 : ℤ) exP6).backtrack = [⟨0, 0⟩] ∧
    ([⟨0, 0⟩] : List AlignedPair) ≠ [] := by
  exact ⟨by decide, by decide, by decide⟩

/-- C6 (amended): the alignment output is empty whenever the candidate
yields zero k-mers; zero usable events alone does not force emptiness. -/
theorem backtrack_empty_of_zero_kmers (n_events bandwidth : ℕ) (lp_trim : α)
    (P : FillParams α) :
    (generic_banded_simple_hmm n_events 0 bandwidth lp_trim P).backtrack = [] := by
  have hk := generic_n_kmers n_events 0 bandwidth lp_trim P
  simp only [ABV.backtrack, hk]
  rw [backtrack_go_stop]
  · rfl
  · left
    norm_num


/-- Helper: one step of the backward walk when both indices are in range. -/
lemma backtrack_go_succ (st : ABV α) (n : ℕ) (ke ee : ℤ) (sk : Bool)
    (out : List AlignedPair) (hc : 0 ≤ ke ∧ 0 ≤ ee) :
    st.backtrack_go (n + 1) ke ee sk out =
      (if st.get_trace ((event_kmer_to_band ee ke).toNat)
            (st.get_offset_for_event_in_band ((event_kmer_to_band ee ke).toNat) ee)
          = SHMM_FROM_D then
        st.backtrack_go n (ke - 1) (ee - 1) false
          (if sk then out else out ++ [⟨ke, ee⟩])
      else if st.get_trace ((event_kmer_to_band ee ke).toNat)
            (st.get_offset_for_event_in_band ((event_kmer_to_band ee ke).toNat) ee)
          = SHMM_FROM_U then
        st.backtrack_go n ke (ee - 1) false (if sk then out else out ++ [⟨ke, ee⟩])
      else
        st.backtrack_go n (ke - 1) ee true (if sk then out else out ++ [⟨ke, ee⟩])) := by
  simp only [ABV.backtrack_go]
  rw [if_pos hc]

/-- Helper: the backward walk appends a tail of in-range pairs, strictly
decreasing in event index and non-increasing in k-mer index. -/
lemma backtrack_go_chain (st : ABV α) :
    ∀ (fuel : ℕ) (ke ee : ℤ) (sk : Bool) (out : List AlignedPair),
      ∃ tail : List AlignedPair,
        st.backtrack_go fuel ke ee sk out = out ++ tail ∧
        List.Chain' (fun a b : AlignedPair =>
          b.event_idx < a.event_idx ∧ b.kmer_idx ≤ a.kmer_idx) tail ∧
        (∀ p ∈ tail, 0 ≤ p.event_idx ∧ 0 ≤ p.kmer_idx ∧ p.kmer_idx ≤ ke ∧
          p.event_idx ≤ (if sk then ee - 1 else ee)) := by
  intro fuel
  induction fuel with
  | zero =>
    intro ke ee sk out
    exact ⟨[], by simp [ABV.backtrack_go], List.chain'_nil, by simp⟩
  | succ n ih =>
    intro ke ee sk out
    by_cases hc : 0 ≤ ke ∧ 0 ≤ ee
    · rw [backtrack_go_succ st n ke ee sk out hc]
      split
      · -- diagonal move
        obtain ⟨t1, ht1, hch1, hm1⟩ := ih (ke - 1) (ee - 1) false
          (if sk then out else out ++ [⟨ke, ee⟩])
        cases sk with
        | false =>
          refine ⟨⟨ke, ee⟩ :: t1, ?_, ?_, ?_⟩
          · simpa [List.append_assoc] using ht1
          · refine List.chain'_cons'.mpr ⟨?_, hch1⟩
            intro q hq
            have h1 := hm1 q (List.mem_of_mem_head? hq)
            simp only [Bool.false_eq_true, if_false] at h1
            dsimp only
            exact ⟨by omega, by omega⟩
          · intro p hp
            rcases List.mem_cons.mp hp with rfl | hp
            · exact ⟨hc.2, hc.1, le_rfl, by simp⟩
            · have h1 := hm1 p hp
              simp only [Bool.false_eq_true, if_false] at h1 ⊢
              exact ⟨h1.1, h1.2.1, by omega, by omega⟩
        | true =>
          refine ⟨t1, by simpa using ht1, hch1, ?_⟩
          intro p hp
          have h1 := hm1 p hp
          simp only [Bool.false_eq_true, if_false] at h1
          simp only [if_true]
          exact ⟨h1.1, h1.2.1, by omega, by omega⟩
      · split
        · -- up move
          obtain ⟨t1, ht1, hch1, hm1⟩ := ih ke (ee - 1) false
            (if sk then out else out ++ [⟨ke, ee⟩])
          cases sk with
          | false =>
            refine ⟨⟨ke, ee⟩ :: t1, ?_, ?_, ?_⟩
            · simpa [List.append_assoc] using ht1
            · refine List.chain'_cons'.mpr ⟨?_, hch1⟩
              intro q hq
              have h1 := hm1 q (List.mem_of_mem_head? hq)
              simp only [Bool.false_eq_true, if_false] at h1
              dsimp only
              exact ⟨by omega, by omega⟩
            · intro p hp
              rcases List.mem_cons.mp hp with rfl | hp
              · exact ⟨hc.2, hc.1, le_rfl, by simp⟩
              · have h1 := hm1 p hp
                simp only [Bool.false_eq_true, if_false] at h1 ⊢
                exact ⟨h1.1, h1.2.1, h1.2.2.1, by omega⟩
          | true =>
            refine ⟨t1, by simpa using ht1, hch1, ?_⟩
            intro p hp
            have h1 := hm1 p hp
            simp only [Bool.false_eq_true, if_false] at h1
            simp only [if_true]
            exact ⟨h1.1, h1.2.1, h1.2.2.1, by omega⟩
        · -- left/skip move
          obtain ⟨t1, ht1, hch1, hm1⟩ := ih (ke - 1) ee true
            (if sk then out else out ++ [⟨ke, ee⟩])
          cases sk with
          | false =>
            refine ⟨⟨ke, ee⟩ :: t1, ?_, ?_, ?_⟩
            · simpa [List.append_assoc] using ht1
            · refine List.chain'_cons'.mpr ⟨?_, hch1⟩
              intro q hq
              have h1 := hm1 q (List.mem_of_mem_head? hq)
              simp only [if_true] at h1
              dsimp only
              exact ⟨by omega, by omega⟩
            · intro p hp
              rcases List.mem_cons.mp hp with rfl | hp
              · exact ⟨hc.2, hc.1, le_rfl, by simp⟩
              · have h1 := hm1 p hp
                simp only [if_true] at h1
                simp only [Bool.false_eq_true, if_false]
                exact ⟨h1.1, h1.2.1, by omega, by omega⟩
          | true =>
            refine ⟨t1, by simpa using ht1, hch1, ?_⟩
            intro p hp
            have h1 := hm1 p hp
            simp only [if_true] at h1
            simp only [if_true]
            exact ⟨h1.1, h1.2.1, by omega, h1.2.2.2⟩
    · refine ⟨[], ?_, List.chain'_nil, by simp⟩
      simp [ABV.backtrack_go, hc]

/-- C7: the alignment emitted by `backtrack` has strictly increasing event
indices and non-decreasing k-mer indices; its first pair has a
non-negative k-mer index and its last pair's k-mer index is at most
`n_kmers - 1`. -/
theorem backtrack_output_ordered (st : ABV α) :
    List.Chain' (fun a b : AlignedPair =>
      a.event_idx < b.event_idx ∧ a.kmer_idx ≤ b.kmer_idx) st.backtrack ∧
    (∀ p ∈ st.backtrack.head?, 0 ≤ p.kmer_idx) ∧
    (∀ p ∈ st.backtrack.getLast?, p.kmer_idx ≤ (st.n_kmers : ℤ) - 1) := by
  obtain ⟨tail, heq, hchain, hmem⟩ := backtrack_go_chain st
    (st.n_kmers + st.n_events + 2) ((st.n_kmers : ℤ) - 1)
    st.backtrack_scan.2 false []
  have hbt : st.backtrack = tail.reverse := by
    simp only [ABV.backtrack]
    rw [heq]
    simp
  rw [hbt]
  refine ⟨?_, ?_, ?_⟩
  · exact List.chain'_reverse.mpr hchain
  · intro p hp
    rw [List.head?_reverse] at hp
    exact (hmem p (List.mem_of_mem_getLast? hp)).2.1
  · intro p hp
    rw [List.getLast?_reverse] at hp
    exact (hmem p (List.mem_of_mem_head? hp)).2.2.1


/-- Helper: `determine_band_origin` keeps `n_bands`. -/
lemma determine_band_origin_n_bands (st : ABV α) (b : ℕ) :
    (st.determine_band_origin b).n_bands = st.n_bands := by
  simp only [ABV.determine_band_origin]
  split <;> split <;> rfl

/-- Helper: `fill_band` keeps `n_bands`. -/
lemma fill_band_n_bands (st : ABV α) (P : FillParams α) (b : ℕ) :
    (st.fill_band P b).n_bands = st.n_bands := by
  simp only [ABV.fill_band]
  rw [foldl_fill_cell_proj ABV.n_bands (fun s Q c o => rfl)]
  split
  · split
    · exact determine_band_origin_n_bands st b
    · exact determine_band_origin_n_bands st b
  · exact determine_band_origin_n_bands st b

/-- Helper: the band loop keeps `n_bands`. -/
lemma fill_loop_n_bands (P : FillParams α) (st : ABV α) (k : ℕ) :
    (fill_loop P st k).n_bands = st.n_bands := by
  induction k with
  | zero => rfl
  | succ n ih =>
    show ((fill_loop P st n).fill_band P (n + 2)).n_bands = st.n_bands
    rw [fill_band_n_bands, ih]

/-- Helper: the driver allocates `(n_events + 1) + (n_kmers + 1)` bands. -/
lemma generic_n_bands (n_events n_kmers bandwidth : ℕ) (lp_trim : α)
    (P : FillParams α) :
    (generic_banded_simple_hmm n_events n_kmers bandwidth lp_trim P).n_bands
      = (n_events + 1) + (n_kmers + 1) := by
  simp only [generic_banded_simple_hmm]
  rw [fill_loop_n_bands]
  rfl

/-- Helper: `determine_band_origin` leaves other bands' origins unchanged. -/
lemma determine_band_origin_other (st : ABV α) (b j : ℕ) (h : j ≠ b) :
    (st.determine_band_origin b).band_origins j = st.band_origins j := by
  simp only [ABV.determine_band_origin]
  split <;> split <;> simp [h]

/-- Helper: `determine_band_origin` makes band `b` one step from band
`b - 1`. -/
lemma determine_band_origin_step (st : ABV α) (b : ℕ) :
    (st.determine_band_origin b).band_origins b
        = move_band_down (st.band_origins (b - 1)) ∨
    (st.determine_band_origin b).band_origins b
        = move_band_right (st.band_origins (b - 1)) := by
  simp only [ABV.determine_band_origin]
  split <;> split
  · exact Or.inr (by simp)
  · exact Or.inl (by simp)
  · exact Or.inr (by simp)
  · exact Or.inl (by simp)

/-- Helper: `fill_band` leaves other bands' origins unchanged. -/
lemma fill_band_origins_other (st : ABV α) (P : FillParams α) (b j : ℕ)
    (h : j ≠ b) :
    (st.fill_band P b).band_origins j = st.band_origins j := by
  simp only [ABV.fill_band]
  rw [foldl_fill_cell_proj ABV.band_origins (fun s Q c o => rfl)]
  split
  · split
    · exact determine_band_origin_other st b j h
    · exact determine_band_origin_other st b j h
  · exact determine_band_origin_other st b j h

/-- Helper: `fill_band` makes band `b` one step from band `b - 1`. -/
lemma fill_band_origins_step (st : ABV α) (P : FillParams α) (b : ℕ) :
    (st.fill_band P b).band_origins b = move_band_down (st.band_origins (b - 1)) ∨
    (st.fill_band P b).band_origins b = move_band_right (st.band_origins (b - 1)) := by
  simp only [ABV.fill_band]
  rw [foldl_fill_cell_proj ABV.band_origins (fun s Q c o => rfl)]
  have h := determine_band_origin_step st b
  split
  · split
    · exact h
    · exact h
  · exact h

/-- Helper: the band loop does not move origins it has not processed. -/
lemma fill_loop_origins_other (P : FillParams α) (st : ABV α) (k j : ℕ)
    (h : j < 2 ∨ k + 1 < j) :
    (fill_loop P st k).band_origins j = st.band_origins j := by
  induction k with
  | zero => rfl
  | succ n ih =>
    show ((fill_loop P st n).fill_band P (n + 2)).band_origins j = st.band_origins j
    rw [fill_band_origins_other _ P _ j (by omega), ih (by omega)]

/-- Helper: every processed band's origin is one step from its
predecessor's. -/
lemma fill_loop_origins_step (P : FillParams α) (st : ABV α) (k : ℕ) :
    ∀ j, 2 ≤ j → j ≤ k + 1 →
      (fill_loop P st k).band_origins j
          = move_band_down ((fill_loop P st k).band_origins (j - 1)) ∨
      (fill_loop P st k).band_origins j
          = move_band_right ((fill_loop P st k).band_origins (j - 1)) := by
  induction k with
  | zero =>
    intro j h2 hk
    omega
  | succ n ih =>
    intro j h2 hk
    by_cases hj : j = n + 2
    · subst hj
      have hother : (fill_loop P st (n + 1)).band_origins (n + 1)
          = (fill_loop P st n).band_origins (n + 1) :=
        fill_band_origins_other _ P _ _ (by omega)
      have hstep := fill_band_origins_step (fill_loop P st n) P (n + 2)
      show (fill_loop P st (n + 1)).band_origins (n + 2)
          = move_band_down ((fill_loop P st (n + 1)).band_origins (n + 1)) ∨
        (fill_loop P st (n + 1)).band_origins (n + 2)
          = move_band_right ((fill_loop P st (n + 1)).band_origins (n + 1))
      rw [hother]
      exact hstep
    · have hoj : (fill_loop P st (n + 1)).band_origins j
          = (fill_loop P st n).band_origins j :=
        fill_band_origins_other _ P _ _ (by omega)
      have hoj1 : (fill_loop P st (n + 1)).band_origins (j - 1)
          = (fill_loop P st n).band_origins (j - 1) :=
        fill_band_origins_other _ P _ _ (by omega)
      rw [hoj, hoj1]
      exact ih j h2 (by omega)

/-- Helper: origins of bands 0 and 1 in the filled matrix are the seeded
half-bandwidth origins. -/
lemma generic_origins_init (n_events n_kmers bandwidth : ℕ) (lp_trim : α)
    (P : FillParams α) :
    (generic_banded_simple_hmm n_events n_kmers bandwidth lp_trim P).band_origins 0
        = ⟨((bandwidth / 2 : ℕ) : ℤ) - 1, -1 - ((bandwidth / 2 : ℕ) : ℤ)⟩ ∧
    (generic_banded_simple_hmm n_events n_kmers bandwidth lp_trim P).band_origins 1
        = move_band_down ⟨((bandwidth / 2 : ℕ) : ℤ) - 1, -1 - ((bandwidth / 2 : ℕ) : ℤ)⟩ := by
  constructor <;>
  · simp only [generic_banded_simple_hmm]
    rw [fill_loop_origins_other _ _ _ _ (by omega)]
    rfl

/-- Helper: every filled band's origin is one step from its predecessor's. -/
lemma generic_origins_step (n_events n_kmers bandwidth : ℕ) (lp_trim : α)
    (P : FillParams α) (j : ℕ) (h2 : 2 ≤ j)
    (hj : j < (n_events + 1) + (n_kmers + 1)) :
    (generic_banded_simple_hmm n_events n_kmers bandwidth lp_trim P).band_origins j
        = move_band_down
          ((generic_banded_simple_hmm n_events n_kmers bandwidth lp_trim P).band_origins (j - 1)) ∨
    (generic_banded_simple_hmm n_events n_kmers bandwidth lp_trim P).band_origins j
        = move_band_right
          ((generic_banded_simple_hmm n_events n_kmers bandwidth lp_trim P).band_origins (j - 1)) :=
  fill_loop_origins_step P _ ((n_events + 1) + (n_kmers + 1) - 2) j h2 (by omega)

/-- Helper: every band origin of the filled matrix sums to its band index
minus 2. -/
lemma generic_origin_sum (n_events n_kmers bandwidth : ℕ) (lp_trim : α)
    (P : FillParams α) :
    ∀ i, i < (n_events + 1) + (n_kmers + 1) →
      ((generic_banded_simple_hmm n_events n_kmers bandwidth lp_trim P).band_origins i).event_idx
        + ((generic_banded_simple_hmm n_events n_kmers bandwidth lp_trim P).band_origins i).kmer_idx
        + 2 = (i : ℤ) := by
  intro i
  induction i with
  | zero =>
    intro _
    rw [(generic_origins_init n_events n_kmers bandwidth lp_trim P).1]
    dsimp only
    ring
  | succ n ih =>
    intro hn
    rcases Nat.lt_or_ge (n + 1) 2 with h1 | h1
    · have hn1 : n + 1 = 1 := by omega
      rw [hn1, (generic_origins_init n_events n_kmers bandwidth lp_trim P).2]
      dsimp only [move_band_down]
      push_cast
      ring
    · have hsum := ih (by omega)
      rcases generic_origins_step n_events n_kmers bandwidth lp_trim P (n + 1) h1 hn
        with h | h
      · rw [h]
        dsimp only [move_band_down]
        push_cast
        omega
      · rw [h]
        dsimp only [move_band_right]
        push_cast
        omega

/-- C5: each successive band origin of the filled matrix increases exactly
one coordinate by exactly 1 (a down or right move), every origin satisfies
`event_idx + kmer_idx + 2 = band`, and hence every cell of band `i`
satisfies `event + kmer + 2 = i`. -/
theorem band_origin_invariants (n_events n_kmers bandwidth : ℕ) (lp_trim : α)
    (P : FillParams α) (i : ℕ)
    (hi : i < (generic_banded_simple_hmm n_events n_kmers bandwidth lp_trim P).n_bands) :
    (((generic_banded_simple_hmm n_events n_kmers bandwidth lp_trim P).band_origins i).event_idx
        + ((generic_banded_simple_hmm n_events n_kmers bandwidth lp_trim P).band_origins i).kmer_idx
        + 2 = (i : ℤ)) ∧
    (1 ≤ i →
      (generic_banded_simple_hmm n_events n_kmers bandwidth lp_trim P).band_origins i
          = move_band_down
            ((generic_banded_simple_hmm n_events n_kmers bandwidth lp_trim P).band_origins (i - 1)) ∨
      (generic_banded_simple_hmm n_events n_kmers bandwidth lp_trim P).band_origins i
          = move_band_right
            ((generic_banded_simple_hmm n_events n_kmers bandwidth lp_trim P).band_origins (i - 1))) ∧
    (∀ offset : ℤ,
      (generic_banded_simple_hmm n_events n_kmers bandwidth lp_trim P).get_event_at_band_offset i offset
        + (generic_banded_simple_hmm n_events n_kmers bandwidth lp_trim P).get_kmer_at_band_offset i offset
        + 2 = (i : ℤ)) := by
  rw [generic_n_bands] at hi
  refine ⟨generic_origin_sum n_events n_kmers bandwidth lp_trim P i hi, ?_, ?_⟩
  · intro h1
    rcases Nat.lt_or_ge i 2 with h | h
    · have hi1 : i = 1 := by omega
      subst hi1
      rw [(generic_origins_init n_events n_kmers bandwidth lp_trim P).2,
        (generic_origins_init n_events n_kmers bandwidth lp_trim P).1]
      exact Or.inl rfl
    · exact generic_origins_step n_events n_kmers bandwidth lp_trim P i h hi
  · intro offset
    have hsum := generic_origin_sum n_events n_kmers bandwidth lp_trim P i hi
    unfold ABV.get_event_at_band_offset ABV.get_kmer_at_band_offset
    omega

/-- Witness for `band_origin_invariants`: cell sums of band 2 of a small
filled matrix. -/
theorem band_origin_invariants_witness :
    (generic_banded_simple_hmm 1 1 2 (-1 : ℤ) exP6).get_event_at_band_offset 2 1
        + (generic_banded_simple_hmm 1 1 2 (-1 : ℤ) exP6).get_kmer_at_band_offset 2 1
        + 2 = (2 : ℤ) :=
  (band_origin_invariants 1 1 2 (-1 : ℤ) exP6 2 (by decide)).2.2 1


/-- Helper: `zscale` is additive. -/
lemma zscale_add (L : ℝ) (a b : ℤ) : zscale L (a + b) = zscale L a + zscale L b := by
  unfold zscale
  push_cast
  ring

/-- Helper: `zscale` of zero. -/
lemma zscale_zero (L : ℝ) : zscale L 0 = 0 := by
  unfold zscale
  push_cast
  ring

/-- Helper: `zscale` preserves and reflects strict order when `0 < L`. -/
lemma zscale_lt_iff (L : ℝ) (hL : 0 < L) (a b : ℤ) :
    zscale L a < zscale L b ↔ a < b := by
  unfold zscale
  rw [mul_lt_mul_right hL]
  exact Int.cast_lt

/-- Helper: `zscale` is injective when `0 < L`. -/
lemma zscale_eq_iff (L : ℝ) (hL : 0 < L) (a b : ℤ) :
    zscale L a = zscale L b ↔ a = b := by
  unfold zscale
  constructor
  · intro h
    exact_mod_cast mul_right_cancel₀ (ne_of_gt hL) h
  · intro h
    rw [h]

/-- Helper: `smap` sends `⊥` to `⊥` and nothing else to `⊥`. -/
lemma smap_eq_bot_iff (L : ℝ) (x : Score ℤ) : smap L x = ⊥ ↔ x = ⊥ := by
  induction x using WithBot.recBotCoe with
  | bot => simp [smap]
  | coe a => simp [smap]

/-- Helper: `smap` preserves and reflects the score order when `0 < L`. -/
lemma smap_lt_iff (L : ℝ) (hL : 0 < L) (x y : Score ℤ) :
    smap L x < smap L y ↔ x < y := by
  induction x using WithBot.recBotCoe with
  | bot =>
    induction y using WithBot.recBotCoe with
    | bot => simp [smap]
    | coe b => simp [smap]
  | coe a =>
    induction y using WithBot.recBotCoe with
    | bot => simp [smap]
    | coe b => simp [smap, WithBot.coe_lt_coe, zscale_lt_iff L hL]

/-- Helper: `smap` is injective on scores when `0 < L`. -/
lemma smap_eq_iff (L : ℝ) (hL : 0 < L) (x y : Score ℤ) :
    smap L x = smap L y ↔ x = y := by
  induction x using WithBot.recBotCoe with
  | bot =>
    induction y using WithBot.recBotCoe with
    | bot => simp
    | coe b => simp [smap]
  | coe a =>
    induction y using WithBot.recBotCoe with
    | bot => simp [smap]
    | coe b => simp [smap, WithBot.coe_inj, zscale_eq_iff L hL]

/-- Helper: `smap` commutes with adding a finite score. -/
lemma smap_add_coe (L : ℝ) (x : Score ℤ) (c : ℤ) :
    smap L (x + ((c : ℤ) : Score ℤ)) = smap L x + ((zscale L c : ℝ) : Score ℝ) := by
  induction x using WithBot.recBotCoe with
  | bot => simp [smap]
  | coe a =>
    rw [← WithBot.coe_add]
    simp [smap, ← zscale_add, ← WithBot.coe_add]

/-- Helper: `smap` sends the sentinel to the sentinel. -/
lemma smap_bot (L : ℝ) : smap L (⊥ : Score ℤ) = (⊥ : Score ℝ) := rfl

/-- Helper: `scoreMap` keeps the bandwidth. -/
lemma scoreMap_bandwidth (L : ℝ) (st : ABV ℤ) :
    (st.scoreMap (zscale L)).bandwidth = st.bandwidth := rfl

/-- Helper: `scoreMap` keeps the event count. -/
lemma scoreMap_n_events (L : ℝ) (st : ABV ℤ) :
    (st.scoreMap (zscale L)).n_events = st.n_events := rfl

/-- Helper: `scoreMap` keeps the k-mer count. -/
lemma scoreMap_n_kmers (L : ℝ) (st : ABV ℤ) :
    (st.scoreMap (zscale L)).n_kmers = st.n_kmers := rfl

/-- Helper: `scoreMap` scales `lp_trim`. -/
lemma scoreMap_lp_trim (L : ℝ) (st : ABV ℤ) :
    (st.scoreMap (zscale L)).lp_trim = zscale L st.lp_trim := rfl

/-- Helper: `scoreMap` keeps the origin sequence. -/
lemma scoreMap_band_origins (L : ℝ) (st : ABV ℤ) :
    (st.scoreMap (zscale L)).band_origins = st.band_origins := rfl

/-- Helper: `scoreMap` keeps the event-offset map. -/
lemma scoreMap_offset_event (L : ℝ) (st : ABV ℤ) (b : ℕ) (e : ℤ) :
    (st.scoreMap (zscale L)).get_offset_for_event_in_band b e
      = st.get_offset_for_event_in_band b e := rfl

/-- Helper: `scoreMap` keeps the k-mer-offset map. -/
lemma scoreMap_offset_kmer (L : ℝ) (st : ABV ℤ) (b : ℕ) (k : ℤ) :
    (st.scoreMap (zscale L)).get_offset_for_kmer_in_band b k
      = st.get_offset_for_kmer_in_band b k := rfl

/-- Helper: `scoreMap` keeps the offset-to-event map. -/
lemma scoreMap_event_at (L : ℝ) (st : ABV ℤ) (b : ℕ) (o : ℤ) :
    (st.scoreMap (zscale L)).get_event_at_band_offset b o
      = st.get_event_at_band_offset b o := rfl

/-- Helper: `scoreMap` keeps the offset-to-k-mer map. -/
lemma scoreMap_kmer_at (L : ℝ) (st : ABV ℤ) (b : ℕ) (o : ℤ) :
    (st.scoreMap (zscale L)).get_kmer_at_band_offset b o
      = st.get_kmer_at_band_offset b o := rfl

/-- Helper: validity of offsets is unchanged by `scoreMap`. -/
lemma scoreMap_is_offset_valid (L : ℝ) (st : ABV ℤ) (o : ℤ) :
    ((st.scoreMap (zscale L)).is_offset_valid o) = (st.is_offset_valid o) := rfl

/-- Helper: the offset range is unchanged by `scoreMap`. -/
lemma scoreMap_offset_range (L : ℝ) (st : ABV ℤ) (b : ℕ) :
    (st.scoreMap (zscale L)).get_offset_range_for_band b
      = st.get_offset_range_for_band b := rfl

/-- Helper: `scoreMap` scales the skip transition parameter. -/
lemma scoreMapP_lp_skip (L : ℝ) (P : FillParams ℤ) :
    (P.scoreMap (zscale L)).lp_skip = zscale L P.lp_skip := rfl

/-- Helper: `scoreMap` scales the stay transition parameter. -/
lemma scoreMapP_lp_stay (L : ℝ) (P : FillParams ℤ) :
    (P.scoreMap (zscale L)).lp_stay = zscale L P.lp_stay := rfl

/-- Helper: `scoreMap` scales the step transition parameter. -/
lemma scoreMapP_lp_step (L : ℝ) (P : FillParams ℤ) :
    (P.scoreMap (zscale L)).lp_step = zscale L P.lp_step := rfl

/-- Helper: `scoreMap` scales the emission scorer pointwise. -/
lemma scoreMapP_lp_emission (L : ℝ) (P : FillParams ℤ) (e k : ℤ) :
    (P.scoreMap (zscale L)).lp_emission e k = zscale L (P.lp_emission e k) := rfl

/-- Helper: `get` commutes with `scoreMap`. -/
lemma scoreMap_get (L : ℝ) (st : ABV ℤ) (b : ℕ) (o : ℤ) :
    (st.scoreMap (zscale L)).get b o = smap L (st.get b o) := by
  unfold ABV.get
  simp only [scoreMap_is_offset_valid]
  by_cases h : st.is_offset_valid o
  · rw [if_pos h, if_pos h]
    rfl
  · rw [if_neg h, if_neg h]
    rfl

/-- Helper: `get_trace` is unchanged by `scoreMap`. -/
lemma scoreMap_get_trace (L : ℝ) (st : ABV ℤ) (b : ℕ) (o : ℤ) :
    (st.scoreMap (zscale L)).get_trace b o = st.get_trace b o := by
  unfold ABV.get_trace
  simp only [scoreMap_is_offset_valid]
  by_cases h : st.is_offset_valid o
  · rw [if_pos h, if_pos h]
    rfl
  · rw [if_neg h, if_neg h]

/-- Helper: `set` commutes with `scoreMap`. -/
lemma scoreMap_set (L : ℝ) (st : ABV ℤ) (b : ℕ) (o : ℤ) (v : Score ℤ) (fr : ℕ) :
    (st.set b o v fr).scoreMap (zscale L)
      = (st.scoreMap (zscale L)).set b o (smap L v) fr := by
  unfold ABV.set ABV.scoreMap ABV.cell_index smap
  simp only [apply_ite (WithBot.map (zscale L))]

/-- Helper: the fill-counter record update commutes with `scoreMap`. -/
lemma scoreMap_with_n_fills (L : ℝ) (st : ABV ℤ) (n : ℕ) :
    ({ st with n_fills := n } : ABV ℤ).scoreMap (zscale L)
      = { st.scoreMap (zscale L) with n_fills := n } := rfl

/-- Helper: `set3` commutes with `scoreMap`: the scaled comparisons select
the same maximum and the same move tag. -/
lemma scoreMap_set3 (L : ℝ) (hL : 0 < L) (st : ABV ℤ) (b : ℕ) (o : ℤ)
    (d u l : Score ℤ) :
    (st.set3 b o d u l).scoreMap (zscale L)
      = (st.scoreMap (zscale L)).set3 b o (smap L d) (smap L u) (smap L l) := by
  simp only [ABV.set3]
  rw [scoreMap_with_n_fills, scoreMap_set]
  by_cases h1 : smap L u > smap L d
  · rw [if_pos h1, if_pos ((smap_lt_iff L hL d u).mp h1)]
    rw [if_pos (rfl : smap L u = smap L u), if_pos (rfl : u = u)]
    by_cases h2 : smap L l > smap L u
    · rw [if_pos h2, if_pos ((smap_lt_iff L hL u l).mp h2)]
      rw [if_pos (rfl : smap L l = smap L l), if_pos (rfl : l = l)]
      rfl
    · rw [if_neg h2, if_neg (fun hc => h2 ((smap_lt_iff L hL u l).mpr hc))]
      by_cases h3 : smap L u = smap L l
      · rw [if_pos h3, if_pos ((smap_eq_iff L hL u l).mp h3)]
        rfl
      · rw [if_neg h3, if_neg (fun hc => h3 ((smap_eq_iff L hL u l).mpr hc))]
        rfl
  · rw [if_neg h1, if_neg (fun hc => h1 ((smap_lt_iff L hL d u).mpr hc))]
    by_cases h4 : smap L d = smap L u
    · rw [if_pos h4, if_pos ((smap_eq_iff L hL d u).mp h4)]
      by_cases h2 : smap L l > smap L d
      · rw [if_pos h2, if_pos ((smap_lt_iff L hL d l).mp h2)]
        rw [if_pos (rfl : smap L l = smap L l), if_pos (rfl : l = l)]
        rfl
      · rw [if_neg h2, if_neg (fun hc => h2 ((smap_lt_iff L hL d l).mpr hc))]
        by_cases h3 : smap L d = smap L l
        · rw [if_pos h3, if_pos ((smap_eq_iff L hL d l).mp h3)]
          rfl
        · rw [if_neg h3, if_neg (fun hc => h3 ((smap_eq_iff L hL d l).mpr hc))]
          rfl
    · rw [if_neg h4, if_neg (fun hc => h4 ((smap_eq_iff L hL d u).mpr hc))]
      by_cases h2 : smap L l > smap L d
      · rw [if_pos h2, if_pos ((smap_lt_iff L hL d l).mp h2)]
        rw [if_pos (rfl : smap L l = smap L l), if_pos (rfl : l = l)]
        rfl
      · rw [if_neg h2, if_neg (fun hc => h2 ((smap_lt_iff L hL d l).mpr hc))]
        by_cases h3 : smap L d = smap L l
        · rw [if_pos h3, if_pos ((smap_eq_iff L hL d l).mp h3)]
          rfl
        · rw [if_neg h3, if_neg (fun hc => h3 ((smap_eq_iff L hL d l).mpr hc))]
          rfl

/-- Helper: `determine_band_origin` commutes with `scoreMap`: the scaled
boundary reads make the same decision. -/
lemma scoreMap_determine (L : ℝ) (hL : 0 < L) (st : ABV ℤ) (b : ℕ) :
    (st.determine_band_origin b).scoreMap (zscale L)
      = (st.scoreMap (zscale L)).determine_band_origin b := by
  simp only [ABV.determine_band_origin]
  simp only [scoreMap_get, scoreMap_bandwidth]
  by_cases hob : st.get (b - 1) 0 = ⊥ ∧ st.get (b - 1) ((st.bandwidth : ℤ) - 1) = ⊥
  · have hob2 : smap L (st.get (b - 1) 0) = ⊥ ∧
        smap L (st.get (b - 1) ((st.bandwidth : ℤ) - 1)) = ⊥ :=
      ⟨(smap_eq_bot_iff L _).mpr hob.1, (smap_eq_bot_iff L _).mpr hob.2⟩
    rw [if_pos hob, if_pos hob2]
    rw [apply_ite (ABV.scoreMap (zscale L))]
    by_cases hpar : (b % 2 == 1) = true
    · rw [if_pos hpar, if_pos hpar]
      rfl
    · rw [if_neg hpar, if_neg hpar]
      rfl
  · have hob2 : ¬ (smap L (st.get (b - 1) 0) = ⊥ ∧
        smap L (st.get (b - 1) ((st.bandwidth : ℤ) - 1)) = ⊥) := fun hc =>
      hob ⟨(smap_eq_bot_iff L _).mp hc.1, (smap_eq_bot_iff L _).mp hc.2⟩
    rw [if_neg hob, if_neg hob2]
    rw [apply_ite (ABV.scoreMap (zscale L))]
    by_cases hlt : st.get (b - 1) 0 < st.get (b - 1) ((st.bandwidth : ℤ) - 1)
    · have hlt2 : smap L (st.get (b - 1) 0) < smap L (st.get (b - 1) ((st.bandwidth : ℤ) - 1)) :=
        (smap_lt_iff L hL _ _).mpr hlt
      rw [if_pos (decide_eq_true hlt), if_pos (decide_eq_true hlt2)]
      rfl
    · have hlt2 : ¬ smap L (st.get (b - 1) 0) < smap L (st.get (b - 1) ((st.bandwidth : ℤ) - 1)) :=
        fun hc => hlt ((smap_lt_iff L hL _ _).mp hc)
      rw [if_neg (fun hc => hlt (of_decide_eq_true hc)),
        if_neg (fun hc => hlt2 (of_decide_eq_true hc))]
      rfl

/-- Helper: the left/skip candidate commutes with `scoreMap`. -/
lemma scoreMap_left_candidate (L : ℝ) (P : FillParams ℤ) (left : Score ℤ)
    (k : ℤ) (e : ℤ) :
    left_candidate (P.scoreMap (zscale L)) (smap L left) k (zscale L e)
      = smap L (left_candidate P left k e) := by
  unfold left_candidate
  simp only [scoreMapP_lp_skip, scoreMapP_lp_step]
  by_cases h : 0 < k
  · rw [if_pos h, if_pos h, smap_add_coe]
  · rw [if_neg h, if_neg h, smap_add_coe, zscale_add]

/-- Helper: `fill_cell` commutes with `scoreMap`. -/
lemma scoreMap_fill_cell (L : ℝ) (hL : 0 < L) (st : ABV ℤ) (P : FillParams ℤ)
    (b : ℕ) (o : ℤ) :
    (st.fill_cell P b o).scoreMap (zscale L)
      = (st.scoreMap (zscale L)).fill_cell (P.scoreMap (zscale L)) b o := by
  simp only [ABV.fill_cell]
  rw [scoreMap_set3 L hL]
  simp only [scoreMap_get, scoreMap_offset_event, scoreMap_offset_kmer,
    scoreMap_event_at, scoreMap_kmer_at, scoreMapP_lp_step, scoreMapP_lp_stay,
    scoreMapP_lp_emission]
  rw [smap_add_coe, zscale_add, smap_add_coe, zscale_add, ← scoreMap_left_candidate]

/-- Helper: the inner offset fold commutes with `scoreMap`. -/
lemma scoreMap_foldl (L : ℝ) (hL : 0 < L) (P : FillParams ℤ) (b : ℕ) (off : ℤ)
    (l : List ℕ) (s : ABV ℤ) :
    (List.foldl (fun acc (i : ℕ) => acc.fill_cell P b (off + (i : ℤ))) s l).scoreMap
        (zscale L)
      = List.foldl
          (fun acc (i : ℕ) => acc.fill_cell (P.scoreMap (zscale L)) b (off + (i : ℤ)))
          (s.scoreMap (zscale L)) l := by
  induction l generalizing s with
  | nil => rfl
  | cons a t ih =>
    rw [List.foldl_cons, List.foldl_cons, ih, scoreMap_fill_cell L hL]

/-- Helper: `fill_band` commutes with `scoreMap`. -/
lemma scoreMap_fill_band (L : ℝ) (hL : 0 < L) (st : ABV ℤ) (P : FillParams ℤ)
    (b : ℕ) :
    (st.fill_band P b).scoreMap (zscale L)
      = (st.scoreMap (zscale L)).fill_band (P.scoreMap (zscale L)) b := by
  simp only [ABV.fill_band]
  rw [← scoreMap_determine L hL]
  generalize st.determine_band_origin b = st1
  simp only [scoreMap_offset_kmer, scoreMap_event_at, scoreMap_is_offset_valid,
    scoreMap_n_events, scoreMap_lp_trim, Int.cast_id]
  by_cases hv : st1.is_offset_valid (st1.get_offset_for_kmer_in_band b (-1))
  · rw [if_pos hv, if_pos hv]
    by_cases he : 0 ≤ st1.get_event_at_band_offset b (st1.get_offset_for_kmer_in_band b (-1))
        ∧ st1.get_event_at_band_offset b (st1.get_offset_for_kmer_in_band b (-1))
          < (st1.n_events : ℤ)
    · rw [if_pos he, if_pos he]
      have hV : ((zscale L st1.lp_trim *
            ((st1.get_event_at_band_offset b (st1.get_offset_for_kmer_in_band b (-1)) : ℝ)
              + 1) : ℝ) : Score ℝ)
          = smap L ((st1.lp_trim *
              (st1.get_event_at_band_offset b (st1.get_offset_for_kmer_in_band b (-1))
                + 1) : ℤ) : Score ℤ) := by
        show _ = ((zscale L (st1.lp_trim *
          (st1.get_event_at_band_offset b (st1.get_offset_for_kmer_in_band b (-1)) + 1))
            : ℝ) : Score ℝ)
        congr 1
        unfold zscale
        push_cast
        ring
      rw [hV, ← scoreMap_set, scoreMap_offset_range]
      exact scoreMap_foldl L hL P b _ _ _
    · rw [if_neg he, if_neg he, ← smap_bot L, ← scoreMap_set, scoreMap_offset_range]
      exact scoreMap_foldl L hL P b _ _ _
  · rw [if_neg hv, if_neg hv, scoreMap_offset_range]
    exact scoreMap_foldl L hL P b _ _ _

/-- Helper: the band loop commutes with `scoreMap`. -/
lemma scoreMap_fill_loop (L : ℝ) (hL : 0 < L) (P : FillParams ℤ) (st : ABV ℤ)
    (k : ℕ) :
    (fill_loop P st k).scoreMap (zscale L)
      = fill_loop (P.scoreMap (zscale L)) (st.scoreMap (zscale L)) k := by
  induction k with
  | zero => rfl
  | succ n ih =>
    show ((fill_loop P st n).fill_band P (n + 2)).scoreMap (zscale L) = _
    rw [scoreMap_fill_band L hL, ih]
    rfl

/-- Helper: the whole driver commutes with `scoreMap`: transition and
emission scores that are integer multiples of `L` fill the scaled
matrix. -/
lemma scoreMap_generic (L : ℝ) (hL : 0 < L) (n_events n_kmers bandwidth : ℕ)
    (c : ℤ) (P : FillParams ℤ) :
    (generic_banded_simple_hmm n_events n_kmers bandwidth c P).scoreMap (zscale L)
      = generic_banded_simple_hmm n_events n_kmers bandwidth (zscale L c)
          (P.scoreMap (zscale L)) := by
  have hinit : ( ABV.initialize ℤ n_events n_kmers bandwidth c).scoreMap (zscale L)
      = ABV.initialize ℝ n_events n_kmers bandwidth (zscale L c) := rfl
  have h0 : smap L ((0 : ℤ) : Score ℤ) = ((0 : ℝ) : Score ℝ) := by
    show ((zscale L 0 : ℝ) : Score ℝ) = _
    rw [zscale_zero]
  simp only [generic_banded_simple_hmm]
  rw [scoreMap_fill_loop L hL, scoreMap_set, scoreMap_set, hinit, h0]
  rfl

/-- Helper: a fold on score-and-index pairs commutes with a relabelling of
the accumulated score when each step does. -/
lemma foldl_pair_map {σ : Type} (f : Score ℤ × ℤ → σ → Score ℤ × ℤ)
    (g : Score ℝ × ℤ → σ → Score ℝ × ℤ) (m : Score ℤ → Score ℝ)
    (hcomm : ∀ (acc : Score ℤ × ℤ) (x : σ),
      g (m acc.1, acc.2) x = (m (f acc x).1, (f acc x).2)) :
    ∀ (l : List σ) (acc : Score ℤ × ℤ),
      List.foldl g (m acc.1, acc.2) l
        = (m (List.foldl f acc l).1, (List.foldl f acc l).2) := by
  intro l
  induction l with
  | nil => intro acc; rfl
  | cons a t ih =>
    intro acc
    rw [List.foldl_cons, List.foldl_cons, hcomm]
    exact ih (f acc a)

/-- Helper: the termination scan commutes with `scoreMap`: the scaled scan
finds the scaled best score at the same event index. -/
lemma scoreMap_backtrack_scan (L : ℝ) (hL : 0 < L) (st : ABV ℤ) :
    (st.scoreMap (zscale L)).backtrack_scan
      = (smap L st.backtrack_scan.1, st.backtrack_scan.2) := by
  simp only [ABV.backtrack_scan]
  simp only [scoreMap_get, scoreMap_offset_event, scoreMap_is_offset_valid,
    scoreMap_n_events, scoreMap_n_kmers, scoreMap_lp_trim, Int.cast_id]
  refine foldl_pair_map _ _ (smap L) ?_ _ (⊥, 0)
  intro acc e
  dsimp only
  by_cases hv : st.is_offset_valid (st.get_offset_for_event_in_band
      ((event_kmer_to_band e ((st.n_kmers : ℤ) - 1)).toNat) e)
  · rw [if_pos hv, if_pos hv]
    have hs : smap L (st.get ((event_kmer_to_band e ((st.n_kmers : ℤ) - 1)).toNat)
          (st.get_offset_for_event_in_band
            ((event_kmer_to_band e ((st.n_kmers : ℤ) - 1)).toNat) e)
          + ((((st.n_events : ℤ) - e) * st.lp_trim : ℤ) : Score ℤ))
        = smap L (st.get ((event_kmer_to_band e ((st.n_kmers : ℤ) - 1)).toNat)
            (st.get_offset_for_event_in_band
              ((event_kmer_to_band e ((st.n_kmers : ℤ) - 1)).toNat) e))
          + (((((st.n_events : ℤ) - e : ℤ) : ℝ) * zscale L st.lp_trim : ℝ) : Score ℝ) := by
      rw [smap_add_coe]
      congr 1
      show ((zscale L (((st.n_events : ℤ) - e) * st.lp_trim) : ℝ) : Score ℝ) = _
      congr 1
      unfold zscale
      push_cast
      ring
    by_cases hlt : acc.1 < st.get ((event_kmer_to_band e ((st.n_kmers : ℤ) - 1)).toNat)
          (st.get_offset_for_event_in_band
            ((event_kmer_to_band e ((st.n_kmers : ℤ) - 1)).toNat) e)
        + ((((st.n_events : ℤ) - e) * st.lp_trim : ℤ) : Score ℤ)
    · have hlt2 := hs ▸ ((smap_lt_iff L hL _ _).mpr hlt)
      rw [if_pos hlt, if_pos hlt2, ← hs]
    · have hlt2 : ¬ smap L acc.1 < smap L (st.get
            ((event_kmer_to_band e ((st.n_kmers : ℤ) - 1)).toNat)
            (st.get_offset_for_event_in_band
              ((event_kmer_to_band e ((st.n_kmers : ℤ) - 1)).toNat) e)
            + ((((st.n_events : ℤ) - e) * st.lp_trim : ℤ) : Score ℤ)) :=
        fun hc => hlt ((smap_lt_iff L hL _ _).mp hc)
      rw [if_neg hlt, if_neg (hs ▸ hlt2)]
  · rw [if_neg hv, if_neg hv]

/-- Helper: the best termination score commutes with `scoreMap`. -/
lemma scoreMap_best_score (L : ℝ) (hL : 0 < L) (st : ABV ℤ) :
    (st.scoreMap (zscale L)).best_score = smap L st.best_score := by
  unfold ABV.best_score
  rw [scoreMap_backtrack_scan L hL]

/-- C9 counterexample: a genuine program input — 4 events, 3 k-mers (so the
driver derives p_stay = 1 - 3/4 = 1/4), p_skip = 1/4 (so p_step = 1/2),
p_trim = 1/2, and emission scores that are integer multiples of log 2 — on
which bandwidth 3 attains a strictly lower best trim-adjusted termination
score than bandwidth 2. -/
theorem bandwidth_not_monotone_cex :
    (2 : ℕ) ≤ 3 ∧
    ((0 : ℝ) < 1/4 ∧ (1/4 : ℝ) < 1) ∧ ((0 : ℝ) < 1/2 ∧ (1/2 : ℝ) < 1) ∧
    (generic_banded_simple_hmm_derived 4 3 3 (1/4) (1/2) exEm9R).best_score
      < (generic_banded_simple_hmm_derived 4 3 2 (1/4) (1/2) exEm9R).best_score := by
  have hL : (0 : ℝ) < Real.log 2 := Real.log_pos (by norm_num)
  have hquarter : Real.log (1/4 : ℝ) = zscale (Real.log 2) (-2) := by
    rw [show (1/4 : ℝ) = (2 : ℝ) ^ (-2 : ℤ) by norm_num, Real.log_zpow]
    unfold zscale
    push_cast
    ring
  have hhalf : Real.log (1/2 : ℝ) = zscale (Real.log 2) (-1) := by
    rw [show (1/2 : ℝ) = (2 : ℝ) ^ (-1 : ℤ) by norm_num, Real.log_zpow]
    unfold zscale
    push_cast
    ring
  have hpstay : derived_p_stay 4 3 = 1/4 := by
    unfold derived_p_stay
    norm_num
  have hparams : derived_fill_params 4 3 (1/4) exEm9R
      = FillParams.scoreMap (zscale (Real.log 2)) exP9 := by
    unfold derived_fill_params FillParams.scoreMap exP9
    simp only [FillParams.mk.injEq, hpstay]
    refine ⟨hquarter, hquarter, ?_, rfl⟩
    rw [Real.exp_log (by norm_num : (0 : ℝ) < 1/4),
      show (1 : ℝ) - 1/4 - 1/4 = 1/2 by norm_num, hhalf]
  have htrans : ∀ bw : ℕ, generic_banded_simple_hmm_derived 4 3 bw (1/4) (1/2) exEm9R
      = (generic_banded_simple_hmm 4 3 bw (-1 : ℤ) exP9).scoreMap (zscale (Real.log 2)) := by
    intro bw
    unfold generic_banded_simple_hmm_derived
    rw [hparams, hhalf, scoreMap_generic (Real.log 2) hL]
  refine ⟨by norm_num, ⟨by norm_num, by norm_num⟩, ⟨by norm_num, by norm_num⟩, ?_⟩
  rw [htrans 3, htrans 2, scoreMap_best_score (Real.log 2) hL,
    scoreMap_best_score (Real.log 2) hL, smap_lt_iff (Real.log 2) hL]
  decide

/-- C9 (amended): what widening the band does guarantee is local: for
states with identical origins and dimensions, a larger bandwidth never
shrinks any band's fill window (`min_offset` unchanged, `max_offset`
non-decreasing); the best achievable total score itself is not monotone in
the bandwidth, because the adaptive band placement changes. -/
theorem offset_range_widens (st1 st2 : ABV α) (band_idx : ℕ)
    (horg : st1.band_origins = st2.band_origins)
    (hne : st1.n_events = st2.n_events)
    (hnk : st1.n_kmers = st2.n_kmers)
    (hbw : st1.bandwidth ≤ st2.bandwidth) :
    (st1.get_offset_range_for_band band_idx).1
        = (st2.get_offset_range_for_band band_idx).1 ∧
    (st1.get_offset_range_for_band band_idx).2
        ≤ (st2.get_offset_range_for_band band_idx).2 := by
  simp only [ABV.get_offset_range_for_band, ABV.get_offset_for_kmer_in_band,
    ABV.get_offset_for_event_in_band]
  rw [horg, hne, hnk]
  constructor
  · rfl
  · exact min_le_min le_rfl (by exact_mod_cast hbw)

/-- Witness for `offset_range_widens`: fresh states with bandwidths 2 and 3
share their origins, and the band-2 window widens. -/
theorem offset_range_widens_witness :
    (( ABV.initialize ℤ 1 1 2 0).get_offset_range_for_band 2).1
        = (( ABV.initialize ℤ 1 1 3 0).get_offset_range_for_band 2).1 ∧
    (( ABV.initialize ℤ 1 1 2 0).get_offset_range_for_band 2).2
        ≤ (( ABV.initialize ℤ 1 1 3 0).get_offset_range_for_band 2).2 :=
  offset_range_widens ( ABV.initialize ℤ 1 1 2 0) ( ABV.initialize ℤ 1 1 3 0) 2
    rfl rfl rfl (by decide)

end AdaBanded
